import Mathlib

/-!
Verification of the task-content annotation parser and duration resolution
of the `task_tools` repository (`src/task_tools/todoist_wrapper.py`).

Strings are modelled as `List Char`.  Python primitives used by the source
(`str.replace`, `str.strip`, `re.findall` for the three concrete regexes,
`datetime.strptime(_, "%H:%M")`) are embedded as executable Lean functions
below, each one a direct transcription of the CPython behaviour on the
inputs the source can feed it.
-/

namespace TaskTools

/-- Characters stripped by Python's `str.strip()` (ASCII whitespace). -/
def pySpace (c : Char) : Bool :=
  c = ' ' ∨ c = '\t' ∨ c = '\n' ∨ c = '\x0d' ∨ c = '\x0b' ∨ c = '\x0c'

/-- Python `str.strip()`: drop leading and trailing whitespace. -/
def pyStrip (s : List Char) : List Char :=
  List.reverse (List.dropWhile pySpace (List.reverse (List.dropWhile pySpace s)))

/-- Test `hasSub s t = true` iff `t` occurs in `s` as a contiguous substring
(Python's `t in s`). -/
def hasSub : List Char → List Char → Bool
  | [], t => t.isPrefixOf []
  | c :: s', t => t.isPrefixOf (c :: s') || hasSub s' t

/-- Python `s.replace(old, new)` (all non-overlapping occurrences, left to
right), fuelled so that the recursion is structural; callers use
`pyReplace`, which supplies fuel `s.length`.  The source never calls
`str.replace` with an empty `old`. -/
def pyReplaceFuel : Nat → List Char → List Char → List Char → List Char
  | _, [], _, _ => []
  | 0, s, _, _ => s
  | n + 1, c :: s, old, new =>
    if old ≠ [] ∧ old.isPrefixOf (c :: s) then
      new ++ pyReplaceFuel n (List.drop old.length (c :: s)) old new
    else
      c :: pyReplaceFuel n s old new

/-- Python `s.replace(old, new)`. -/
def pyReplace (s old new : List Char) : List Char :=
  pyReplaceFuel s.length s old new

/-- Leftmost occurrence of `t` in `s`: `some (p, q)` with `s = p ++ t ++ q`
and no occurrence of `t` starting inside `p`. -/
def splitFirst : List Char → List Char → Option (List Char × List Char)
  | [], t => if t.isPrefixOf [] then some ([], []) else none
  | c :: s', t =>
    if t.isPrefixOf (c :: s') then some ([], List.drop t.length (c :: s'))
    else (splitFirst s' t).map (fun pq => (c :: pq.1, pq.2))

theorem isPrefixOf_eq_true_iff :
    ∀ (t s : List Char), t.isPrefixOf s = true ↔ ∃ u, s = t ++ u := by
  intro t
  induction t with
  | nil => intro s; simp [List.isPrefixOf]
  | cons c t ih =>
    intro s
    cases s with
    | nil => simp [List.isPrefixOf]
    | cons b s' =>
      simp only [List.isPrefixOf, Bool.and_eq_true, beq_iff_eq, ih s']
      constructor
      · rintro ⟨rfl, u, rfl⟩; exact ⟨u, rfl⟩
      · rintro ⟨u, h⟩
        injection h with h1 h2
        exact ⟨h1.symm, u, h2⟩

theorem isPrefixOf_append (t u : List Char) : t.isPrefixOf (t ++ u) = true :=
  (isPrefixOf_eq_true_iff t (t ++ u)).2 ⟨u, rfl⟩

theorem eq_nil_of_isPrefixOf_nil (old : List Char)
    (h : old.isPrefixOf [] = true) : old = [] := by
  obtain ⟨u, hu⟩ := (isPrefixOf_eq_true_iff old []).1 h
  exact (List.append_eq_nil.1 hu.symm).1

theorem hasSub_of_isPrefixOf (s t : List Char) (h : t.isPrefixOf s = true) :
    hasSub s t = true := by
  cases s with
  | nil => simpa [hasSub] using h
  | cons c s' => simp [hasSub, h]

theorem hasSub_of_append (p t q : List Char) :
    hasSub (p ++ t ++ q) t = true := by
  induction p with
  | nil =>
    exact hasSub_of_isPrefixOf (t ++ q) t (by simp [isPrefixOf_append t q])
  | cons c p ih =>
    simp only [List.cons_append, hasSub, Bool.or_eq_true]
    exact Or.inr (by simpa using ih)

theorem hasSub_eq_true_iff (s t : List Char) :
    hasSub s t = true ↔ ∃ p q, s = p ++ t ++ q := by
  constructor
  · induction s with
    | nil =>
      intro h
      simp only [hasSub] at h
      exact ⟨[], [], by simp [eq_nil_of_isPrefixOf_nil t h]⟩
    | cons c s' ih =>
      intro h
      simp only [hasSub, Bool.or_eq_true] at h
      rcases h with h | h
      · obtain ⟨u, hu⟩ := (isPrefixOf_eq_true_iff t (c :: s')).1 h
        exact ⟨[], u, by simpa using hu⟩
      · obtain ⟨p, q, hpq⟩ := ih h
        exact ⟨c :: p, q, by simp [hpq]⟩
  · rintro ⟨p, q, rfl⟩
    exact hasSub_of_append p t q

theorem hasSub_nil_eq_false (t : List Char) (ht : t ≠ []) :
    hasSub [] t = false := by
  cases h : hasSub [] t
  · rfl
  · simp only [hasSub] at h
    exact absurd (eq_nil_of_isPrefixOf_nil t h) ht

/-- The new string occurs in the result of `pyReplaceFuel` whenever the old
one occurs in the input. -/
theorem hasSub_pyReplaceFuel_new :
    ∀ (n : Nat) (s old new : List Char), s.length ≤ n → old ≠ [] →
      hasSub s old = true → hasSub (pyReplaceFuel n s old new) new = true := by
  intro n
  induction n with
  | zero =>
    intro s old new hn hold hsub
    have hs : s = [] := List.length_eq_zero.1 (Nat.le_zero.1 hn)
    subst hs
    rw [hasSub_nil_eq_false old hold] at hsub
    exact absurd hsub (by simp)
  | succ n ih =>
    intro s old new hn hold hsub
    cases s with
    | nil =>
      rw [hasSub_nil_eq_false old hold] at hsub
      exact absurd hsub (by simp)
    | cons c s' =>
      by_cases hp : old.isPrefixOf (c :: s') = true
      · rw [pyReplaceFuel]
        simp only [hold, hp, ne_eq, not_false_iff, true_and, if_true]
        rw [show (new ++ pyReplaceFuel n (List.drop old.length (c :: s')) old new) =
              [] ++ new ++ pyReplaceFuel n (List.drop old.length (c :: s')) old new from rfl]
        exact hasSub_of_append [] new _
      · rw [pyReplaceFuel]
        have hcond : ¬ (old ≠ [] ∧ old.isPrefixOf (c :: s') = true) := by
          intro hcon; exact hp hcon.2
        simp only [hcond, if_false]
        simp only [hasSub, hp, Bool.false_or] at hsub
        have hlen : s'.length ≤ n := Nat.le_of_succ_le_succ (by simpa using hn)
        have hrec := ih s' old new hlen hold hsub
        simp only [hasSub, Bool.or_eq_true]
        exact Or.inr hrec

theorem hasSub_pyReplace_new (s old new : List Char) (hold : old ≠ [])
    (hsub : hasSub s old = true) :
    hasSub (pyReplace s old new) new = true :=
  hasSub_pyReplaceFuel_new s.length s old new (Nat.le_refl _) hold hsub

/-- If the old string does not occur, `pyReplaceFuel` is the identity. -/
theorem pyReplaceFuel_of_not_hasSub :
    ∀ (n : Nat) (s old new : List Char), s.length ≤ n →
      hasSub s old = false → pyReplaceFuel n s old new = s := by
  intro n
  induction n with
  | zero =>
    intro s old new hn _
    have hs : s = [] := List.length_eq_zero.1 (Nat.le_zero.1 hn)
    subst hs; rfl
  | succ n ih =>
    intro s old new hn hsub
    cases s with
    | nil => rfl
    | cons c s' =>
      simp only [hasSub, Bool.or_eq_false_iff] at hsub
      rw [pyReplaceFuel]
      have hcond : ¬ (old ≠ [] ∧ old.isPrefixOf (c :: s') = true) := by
        intro hcon
        rw [hsub.1] at hcon
        exact absurd hcon.2 (by simp)
      simp only [hcond, if_false]
      have hlen : s'.length ≤ n := Nat.le_of_succ_le_succ (by simpa using hn)
      rw [ih s' old new hlen hsub.2]

theorem pyReplace_of_not_hasSub (s old new : List Char)
    (hsub : hasSub s old = false) : pyReplace s old new = s :=
  pyReplaceFuel_of_not_hasSub s.length s old new (Nat.le_refl _) hsub

/-- Coercion helper: the character list of a string literal. -/
def str (s : String) : List Char := s.data

def exceptDecEq {ε α : Type} [DecidableEq ε] [DecidableEq α] :
    DecidableEq (Except ε α)
  | .error e, .error f =>
    if h : e = f then isTrue (by rw [h])
    else isFalse (by intro hc; injection hc; contradiction)
  | .error _, .ok _ => isFalse (by intro hc; exact Except.noConfusion hc)
  | .ok _, .error _ => isFalse (by intro hc; exact Except.noConfusion hc)
  | .ok a, .ok b =>
    if h : a = b then isTrue (by rw [h])
    else isFalse (by intro hc; injection hc; contradiction)

instance {ε α : Type} [DecidableEq ε] [DecidableEq α] :
    DecidableEq (Except ε α) := exceptDecEq

/-! ## The annotation parser (`TodoistTask`, `todoist_wrapper.py` 179-269) -/

/-- Consume a literal pattern at the head of the list. -/
def expects (pat l : List Char) : Option (List Char) :=
  if pat.isPrefixOf l then some (List.drop pat.length l) else none

/-- The anchored match `re.findall(r'^\((\d+\+?)\)', content)`: capture of
the first (only possible) match, if any.  The greedy `\d+` takes the
maximal digit run after `(`; no backtracking can succeed otherwise. -/
def matchShortTok (l : List Char) : Option (List Char) :=
  (expects ['('] l).bind (fun t =>
    let ds := t.takeWhile Char.isDigit
    if ds.isEmpty then none
    else if (expects ['+', ')'] (t.dropWhile Char.isDigit)).isSome then
      some (ds ++ ['+'])
    else if (expects [')'] (t.dropWhile Char.isDigit)).isSome then
      some ds
    else none)

/-- Source `TodoistTask.parse_short_duration` (lines 241-248): returns the value
stored into `__short_duration` and the returned content.  When a token is
matched, the source rebuilds an anchored literal pattern (escaping `+`) and
`re.sub`s it away, which removes exactly the `(token)` prefix; then
`str.strip()`. -/
def parse_short_duration (content : List Char) : Option (List Char) × List Char :=
  match matchShortTok content with
  | some tok =>
    let pat := '(' :: (tok ++ [')'])
    (some tok,
      pyStrip (if pat.isPrefixOf content then List.drop pat.length content else content))
  | none => (none, pyStrip content)

/-- One 24-hour-clock shape `\d{1,2}:\d{2}` at the head of the list: the
matched text and the remainder.  The greedy two-digit hour is tried first;
the alternatives are mutually exclusive, so no backtracking is needed. -/
def matchClock : List Char → Option (List Char × List Char)
  | a :: b :: c :: d :: e :: rest =>
    if a.isDigit ∧ b.isDigit ∧ c = ':' ∧ d.isDigit ∧ e.isDigit then
      some ([a, b, c, d, e], rest)
    else if a.isDigit ∧ b = ':' ∧ c.isDigit ∧ d.isDigit then
      some ([a, b, c, d], e :: rest)
    else none
  | [a, b, c, d] =>
    if a.isDigit ∧ b = ':' ∧ c.isDigit ∧ d.isDigit then some ([a, b, c, d], []) else none
  | _ => none

/-- A match of `r'\d{1,2}:\d{2}-\d{1,2}:\d{2}'` starting at the head of the
list: the matched text. -/
def matchTimeAt (l : List Char) : Option (List Char) :=
  match matchClock l with
  | some (m1, rest) =>
    match rest with
    | '-' :: rest2 =>
      match matchClock rest2 with
      | some (m2, _) => some (m1 ++ '-' :: m2)
      | none => none
    | _ => none
  | none => none

/-- Model of `re.findall(r'\d{1,2}:\d{2}-\d{1,2}:\d{2}', content)[0]`: the leftmost
match, scanning positions left to right. -/
def findFirstTime : List Char → Option (List Char)
  | [] => none
  | c :: t =>
    match matchTimeAt (c :: t) with
    | some m => some m
    | none => findFirstTime t

def digitVal (c : Char) : Nat := c.toNat - 48

/-- The `%H` directive of `datetime.strptime`: regex `(2[0-3]|[0-1]\d|\d)`,
alternatives tried in order. -/
def parseHourPy (l : List Char) : Option (Nat × List Char) :=
  match l with
  | '2' :: c :: rest =>
    if '0' ≤ c ∧ c ≤ '3' then some (20 + digitVal c, rest)
    else some (2, c :: rest)
  | a :: c :: rest =>
    if (a = '0' ∨ a = '1') ∧ c.isDigit then some (digitVal a * 10 + digitVal c, rest)
    else if a.isDigit then some (digitVal a, c :: rest)
    else none
  | [a] => if a.isDigit then some (digitVal a, []) else none
  | [] => none

/-- The `%M` directive of `datetime.strptime`: regex `([0-5]\d|\d)`. -/
def parseMinutePy (l : List Char) : Option (Nat × List Char) :=
  match l with
  | a :: c :: rest =>
    if '0' ≤ a ∧ a ≤ '5' ∧ c.isDigit then some (digitVal a * 10 + digitVal c, rest)
    else if a.isDigit then some (digitVal a, c :: rest)
    else none
  | [a] => if a.isDigit then some (digitVal a, []) else none
  | [] => none

/-- Model of `dt.datetime.strptime(s, '%H:%M').time()` as (hour, minute); `none`
models the raised `ValueError` (including unconverted trailing data). -/
def strptimeHM (l : List Char) : Option (Nat × Nat) :=
  match parseHourPy l with
  | some (h, rest) =>
    match rest with
    | ':' :: rest2 =>
      match parseMinutePy rest2 with
      | some (m, []) => some (h, m)
      | _ => none
    | _ => none
  | none => none

/-- Model of `result[0].split('-')` followed by the two `strptime` calls of
`parse_time_period`; `none` models the raised `ValueError`.  Every string
produced by `findFirstTime` contains exactly one `-`. -/
def parseTimeHalves (m : List Char) : Option ((Nat × Nat) × (Nat × Nat)) :=
  let h1 := m.takeWhile (fun c => c ≠ '-')
  let h2 := List.drop 1 (m.dropWhile (fun c => c ≠ '-'))
  match strptimeHM h1, strptimeHM h2 with
  | some t1, some t2 => some (t1, t2)
  | _, _ => none

/-- Source `TodoistTask.parse_time_period` (lines 250-257).  Takes the previous
values of `__start_time`/`__end_time`, which the source leaves untouched
when no match is found.  `content.replace(result[0], '')` removes all
non-overlapping occurrences of the matched substring. -/
def parse_time_period (prev_start prev_end : Option (Nat × Nat)) (content : List Char) :
    Except Unit (Option (Nat × Nat) × Option (Nat × Nat) × List Char) :=
  match findFirstTime content with
  | none => .ok (prev_start, prev_end, pyStrip content)
  | some m =>
    match parseTimeHalves m with
    | none => .error ()
    | some (t1, t2) => .ok (some t1, some t2, pyStrip (pyReplace content m []))

/-- Source `get_todoist_link` (line 52-53) / `f'[{t}]({l})'`. -/
def mdLink (t l : List Char) : List Char := '[' :: (t ++ ']' :: '(' :: (l ++ [')']))

/-- A match of `r'\[([^]]+)]\((http[s]*://[^)]+)\)'` starting at the head
of the list: `(anchor, url, rest)`.  Each greedy sub-pattern is forced (no
backtracking can recover from a failure). -/
def matchLinkAt (l : List Char) : Option (List Char × List Char × List Char) :=
  (expects ['['] l).bind (fun t =>
    let anchor := t.takeWhile (fun c => c ≠ ']')
    if anchor.isEmpty then none
    else
      (expects [']', '('] (t.dropWhile (fun c => c ≠ ']'))).bind (fun r2 =>
        (expects (str "http") r2).bind (fun r3 =>
          let sRun := r3.takeWhile (fun c => c = 's')
          (expects (str "://") (r3.dropWhile (fun c => c = 's'))).bind (fun r5 =>
            let urlRest := r5.takeWhile (fun c => c ≠ ')')
            if urlRest.isEmpty then none
            else
              (expects [')'] (r5.dropWhile (fun c => c ≠ ')'))).map (fun r7 =>
                (anchor, str "http" ++ sRun ++ str "://" ++ urlRest, r7))))))

/-- Model of `re.findall` for the link regex: all non-overlapping matches, scanning
left to right.  Fuelled (callers supply the length of the list). -/
def findLinksFuel : Nat → List Char → List (List Char × List Char)
  | 0, _ => []
  | _ + 1, [] => []
  | n + 1, c :: t =>
    match matchLinkAt (c :: t) with
    | some (a, u, rest) => (a, u) :: findLinksFuel n rest
    | none => findLinksFuel n t

def findLinks (content : List Char) : List (List Char × List Char) :=
  findLinksFuel content.length content

/-- Source `TodoistTask.parse_links` (lines 259-263): the stored `__links` and the
returned content. -/
def parse_links (content : List Char) : List (List Char × List Char) × List Char :=
  let links := findLinks content
  (links, pyStrip (links.foldl (fun c tl => pyReplace c (mdLink tl.1 tl.2) tl.1) content))

/-- Source `TodoistTask.get_content` (lines 265-269). -/
def get_content (content : List Char) (links : List (List Char × List Char)) : List Char :=
  links.foldl (fun c tl => pyReplace c tl.1 (mdLink tl.1 tl.2)) content

/-- Source `DurationLabel` (lines 17-23). -/
structure DurationLabel where
  label : String
  minutes : Int
deriving DecidableEq, Repr

/-- Source `get_label_by_duration` (lines 47-49); the configured duration-label
dict is modelled as an association list in insertion (= iteration) order. -/
def get_label_by_duration (minutes : Int)
    (duration_labels : List (String × DurationLabel)) : Option String :=
  let labels := (duration_labels.map (fun kv => kv.2)).filterMap
    (fun lbl => if lbl.minutes = minutes then some lbl.label else none)
  labels.head?

/-- The private derived fields of `TodoistTask` touched by the
`raw_content` setter. -/
structure TaskParseState where
  raw_content : List Char
  pure_content : List Char
  short_duration : Option (List Char)
  start_time : Option (Nat × Nat)
  end_time : Option (Nat × Nat)
  links : List (List Char × List Char)
  duration : Int
deriving DecidableEq, Repr

/-- The state right after `__init__` line 228-229, before the first
assignment to `raw_content`. -/
def initState : TaskParseState :=
  { raw_content := [], pure_content := [], short_duration := none,
    start_time := none, end_time := none, links := [], duration := 0 }

/-- The `raw_content` property setter (lines 196-203).  `Except.error`
models the `ValueError` escaping from `parse_time_period`. -/
def setRawContent (st : TaskParseState) (val : List Char) :
    Except Unit TaskParseState :=
  let sd := parse_short_duration val
  match parse_time_period st.start_time st.end_time sd.2 with
  | .error e => .error e
  | .ok (ts, te, c2) =>
    let pl := parse_links c2
    .ok { raw_content := val, pure_content := pl.2, short_duration := sd.1,
          start_time := ts, end_time := te, links := pl.1, duration := 0 }

/-- Source `TodoistTask.summary` (lines 180-182): `self.pure_content[:50]`. -/
def summary (st : TaskParseState) : List Char := st.pure_content.take 50

/-! ## Definitions modelled from the spec's words, for comparison -/

/-- Modelled from the spec (§4.2): `DurationResolver.resolve` — the maximum
`minutes` over table entries whose key is among the task's label ids, `0`
when none matches.  The source has no such computation: the `raw_content`
setter (line 203) assigns `self.__duration = 0` unconditionally. -/
def resolveDurationSpec (task_label_ids : List String)
    (table : List (String × DurationLabel)) : Int :=
  (table.filter (fun kv => task_label_ids.contains kv.1)).foldl
    (fun acc kv => max acc kv.2.minutes) 0

/-- Modelled from the spec's words for `render` ("replace the first
occurrence of the bare anchor"): replace only the leftmost occurrence. -/
def pyReplaceFirstFuel : Nat → List Char → List Char → List Char → List Char
  | _, [], _, _ => []
  | 0, s, _, _ => s
  | n + 1, c :: s, old, new =>
    if old ≠ [] ∧ old.isPrefixOf (c :: s) then
      new ++ List.drop old.length (c :: s)
    else
      c :: pyReplaceFirstFuel n s old new

def pyReplaceFirst (s old new : List Char) : List Char :=
  pyReplaceFirstFuel s.length s old new

/-- Modelled from the spec's words: `render` replacing, for each link pair
in order, only the first occurrence of the anchor. -/
def renderFirstSpec (content : List Char)
    (links : List (List Char × List Char)) : List Char :=
  links.foldl (fun c tl => pyReplaceFirst c tl.1 (mdLink tl.1 tl.2)) content

/-- The spec's words for `label_for_duration`: the name of the first entry
in table iteration order whose `minutes` equals the value, else absent. -/
def labelForDurationSpec (minutes : Int)
    (table : List (String × DurationLabel)) : Option String :=
  ((table.map (fun kv => kv.2)).find? (fun lbl => lbl.minutes = minutes)).map
    (fun lbl => lbl.label)

/-! ## Support lemmas -/

theorem setRawContent_eq (st : TaskParseState) (val : List Char) :
    setRawContent st val =
      match parse_time_period st.start_time st.end_time
          (parse_short_duration val).2 with
      | .error e => .error e
      | .ok (ts, te, c2) =>
        .ok { raw_content := val, pure_content := (parse_links c2).2,
              short_duration := (parse_short_duration val).1, start_time := ts,
              end_time := te, links := (parse_links c2).1, duration := 0 } := rfl

theorem parse_short_duration_eq_some (content tok : List Char)
    (h : matchShortTok content = some tok) :
    parse_short_duration content =
      (some tok, pyStrip (if ('(' :: (tok ++ [')'])).isPrefixOf content then
        List.drop ('(' :: (tok ++ [')'])).length content else content)) := by
  unfold parse_short_duration
  rw [h]

theorem parse_short_duration_eq_none (content : List Char)
    (h : matchShortTok content = none) :
    parse_short_duration content = (none, pyStrip content) := by
  unfold parse_short_duration
  rw [h]

theorem parse_time_period_of_none (ps pe : Option (Nat × Nat)) (content : List Char)
    (h : findFirstTime content = none) :
    parse_time_period ps pe content = .ok (ps, pe, pyStrip content) := by
  simp only [parse_time_period, h]

theorem parse_time_period_of_invalid (ps pe : Option (Nat × Nat))
    (content m : List Char)
    (h1 : findFirstTime content = some m) (h2 : parseTimeHalves m = none) :
    parse_time_period ps pe content = .error () := by
  simp only [parse_time_period, h1, h2]

theorem parse_time_period_of_valid (ps pe : Option (Nat × Nat))
    (content m : List Char) (t1 t2 : Nat × Nat)
    (h1 : findFirstTime content = some m)
    (h2 : parseTimeHalves m = some (t1, t2)) :
    parse_time_period ps pe content =
      .ok (some t1, some t2, pyStrip (pyReplace content m [])) := by
  simp only [parse_time_period, h1, h2]

theorem expects_eq_some_iff (pat l r : List Char) :
    expects pat l = some r ↔ l = pat ++ r := by
  unfold expects
  by_cases h : pat.isPrefixOf l = true
  · obtain ⟨u, hu⟩ := (isPrefixOf_eq_true_iff pat l).1 h
    subst hu
    simp only [h, if_true, List.drop_left, Option.some.injEq]
    constructor
    · rintro rfl; rfl
    · intro hx; exact List.append_cancel_left hx
  · simp only [h, if_false]
    constructor
    · intro hx; exact absurd hx (by simp)
    · intro hx
      exact absurd ((isPrefixOf_eq_true_iff pat l).2 ⟨r, hx⟩) h

theorem takeWhile_middle {α : Type} (p : α → Bool) :
    ∀ (xs : List α) (y : α) (ys : List α), (∀ x ∈ xs, p x = true) → p y = false →
      (xs ++ y :: ys).takeWhile p = xs ∧ (xs ++ y :: ys).dropWhile p = y :: ys := by
  intro xs
  induction xs with
  | nil =>
    intro y ys _ hy
    simp [List.takeWhile, List.dropWhile, hy]
  | cons x xs ih =>
    intro y ys hxs hy
    have hx : p x = true := hxs x (by simp)
    have := ih y ys (fun z hz => hxs z (by simp [hz])) hy
    simp [List.takeWhile, List.dropWhile, hx, this.1, this.2]

theorem dropWhile_pySpace_sandwich :
    ∀ (pre : List Char) (c : Char) (t1 suf : List Char), pySpace c = false →
      ∃ pre2, List.dropWhile pySpace (pre ++ (c :: t1) ++ suf) =
        pre2 ++ (c :: t1) ++ suf := by
  intro pre
  induction pre with
  | nil =>
    intro c t1 suf hc
    exact ⟨[], by simp [List.dropWhile, hc]⟩
  | cons a pre ih =>
    intro c t1 suf hc
    by_cases ha : pySpace a = true
    · obtain ⟨pre2, h2⟩ := ih c t1 suf hc
      exact ⟨pre2, by simpa [List.dropWhile, ha] using h2⟩
    · exact ⟨a :: pre, by simp [List.dropWhile, Bool.eq_false_iff.2 ha]⟩

/-- Stripping preserves an occurrence whose first and last characters are
not whitespace. -/
theorem hasSub_pyStrip (s t : List Char) (c d : Char) (t1 t2 : List Char)
    (hhead : t = c :: t1) (hlast : t.reverse = d :: t2)
    (hc : pySpace c = false) (hd : pySpace d = false)
    (hs : hasSub s t = true) : hasSub (pyStrip s) t = true := by
  obtain ⟨p, q, rfl⟩ := (hasSub_eq_true_iff _ t).1 hs
  rw [hhead] at *
  obtain ⟨pre2, h2⟩ := dropWhile_pySpace_sandwich p c t1 q hc
  unfold pyStrip
  rw [h2]
  have hrev : (pre2 ++ (c :: t1) ++ q).reverse =
      q.reverse ++ (d :: t2) ++ pre2.reverse := by
    rw [← hlast]; simp
  rw [hrev]
  obtain ⟨pre3, h3⟩ := dropWhile_pySpace_sandwich q.reverse d t2 pre2.reverse hd
  rw [h3]
  have hdt : (d :: t2).reverse = c :: t1 := by
    rw [← hlast]; simp
  have hgoal : (pre3 ++ (d :: t2) ++ pre2.reverse).reverse =
      pre2 ++ ((c :: t1) ++ pre3.reverse) := by
    rw [List.reverse_append, List.reverse_append, List.reverse_reverse, hdt]
  rw [hgoal]
  have := hasSub_of_append pre2 (c :: t1) pre3.reverse
  rwa [List.append_assoc] at this

/-- Soundness of the link matcher: the input begins with the exact matched
Markdown substring, the anchor is non-empty, and the URL has shape
`http` `s`* `://` followed by a non-empty `)`-free tail. -/
theorem matchLinkAt_sound (l a u rest : List Char)
    (h : matchLinkAt l = some (a, u, rest)) :
    l = mdLink a u ++ rest ∧ a ≠ [] ∧
      ∃ k ur, u = str "http" ++ List.replicate k 's' ++ str "://" ++ ur ∧ ur ≠ [] := by
  unfold matchLinkAt at h
  rw [Option.bind_eq_some] at h
  obtain ⟨t, h1, h⟩ := h
  simp only at h
  by_cases he : (t.takeWhile (fun c => c ≠ ']')).isEmpty
  · rw [if_pos he] at h; exact absurd h (by simp)
  · rw [if_neg he, Option.bind_eq_some] at h
    obtain ⟨r2, h2, h⟩ := h
    rw [Option.bind_eq_some] at h
    obtain ⟨r3, h3, h⟩ := h
    rw [Option.bind_eq_some] at h
    obtain ⟨r5, h4, h⟩ := h
    by_cases he2 : (r5.takeWhile (fun c => c ≠ ')')).isEmpty
    · rw [if_pos he2] at h; exact absurd h (by simp)
    · rw [if_neg he2, Option.map_eq_some'] at h
      obtain ⟨r7, h5, h⟩ := h
      obtain ⟨ha, hu, hr⟩ :
          t.takeWhile (fun c => c ≠ ']') = a ∧
          (str "http" ++ r3.takeWhile (fun c => c = 's') ++ str "://" ++
            r5.takeWhile (fun c => c ≠ ')')) = u ∧ r7 = rest := by
        simpa [Prod.ext_iff] using h
      rw [expects_eq_some_iff] at h1 h2 h3 h4 h5
      have ht : t.takeWhile (fun c => c ≠ ']') ++ ([']', '('] ++ r2) = t := by
        rw [← h2]; exact List.takeWhile_append_dropWhile ..
      have hr3 : r3.takeWhile (fun c => c = 's') ++ (str "://" ++ r5) = r3 := by
        rw [← h4]; exact List.takeWhile_append_dropWhile ..
      have hr5 : r5.takeWhile (fun c => c ≠ ')') ++ ([')'] ++ r7) = r5 := by
        rw [← h5]; exact List.takeWhile_append_dropWhile ..
      have hl : l = ['['] ++ (t.takeWhile (fun c => c ≠ ']') ++
          ([']', '('] ++ (str "http" ++ r3))) := by
        rw [h1]
        conv_lhs => rw [← ht]
        rw [h3]
      rw [← hr5] at hr3
      rw [← hr3] at hl
      refine ⟨?_, ?_, ?_⟩
      · rw [hl, ← ha, ← hu, ← hr]
        simp [mdLink, str]
      · rw [← ha]
        simpa [List.isEmpty_iff] using he
      · refine ⟨(r3.takeWhile (fun c => c = 's')).length,
          r5.takeWhile (fun c => c ≠ ')'), ?_, ?_⟩
        · have hrep : r3.takeWhile (fun c => c = 's') =
              List.replicate (r3.takeWhile (fun c => c = 's')).length 's' := by
            apply List.eq_replicate_of_mem
            intro b hb
            have := List.mem_takeWhile_imp hb
            simpa using this
          rw [← hu, ← hrep]
        · simpa [List.isEmpty_iff] using he2

theorem hasSub_append_left (x s t : List Char) (h : hasSub s t = true) :
    hasSub (x ++ s) t = true := by
  obtain ⟨p, q, rfl⟩ := (hasSub_eq_true_iff s t).1 h
  have := hasSub_of_append (x ++ p) t q
  simpa [List.append_assoc] using this

/-- Every pair produced by the `findall` scan occurs in the scanned text as
a full Markdown link, has a non-empty anchor, and has a URL of shape
`http` `s`* `://` tail. -/
theorem mem_findLinksFuel_props :
    ∀ (n : Nat) (c : List Char) (a u : List Char), c.length ≤ n →
      (a, u) ∈ findLinksFuel n c →
      hasSub c (mdLink a u) = true ∧ a ≠ [] ∧
        ∃ k ur, u = str "http" ++ List.replicate k 's' ++ str "://" ++ ur ∧ ur ≠ [] := by
  intro n
  induction n with
  | zero =>
    intro c a u _ hmem
    exact absurd hmem (by simp [findLinksFuel])
  | succ n ih =>
    intro c a u hn hmem
    cases c with
    | nil => exact absurd hmem (by simp [findLinksFuel])
    | cons ch t =>
      rw [findLinksFuel] at hmem
      cases hm : matchLinkAt (ch :: t) with
      | some aur =>
        obtain ⟨a0, u0, rest⟩ := aur
        rw [hm] at hmem
        obtain ⟨hdec, hane, hurl⟩ := matchLinkAt_sound (ch :: t) a0 u0 rest hm
        have hrest_len : rest.length ≤ t.length := by
          have := congrArg List.length hdec
          simp only [List.length_append, List.length_cons] at this
          have hmd : 0 < (mdLink a0 u0).length := by simp [mdLink]
          omega
        rcases List.mem_cons.1 hmem with heq | hmem'
        · obtain ⟨ha, hu⟩ := Prod.mk.injEq .. ▸ heq
          subst ha hu
          refine ⟨?_, hane, hurl⟩
          rw [hdec, show mdLink a u ++ rest = [] ++ mdLink a u ++ rest from rfl]
          exact hasSub_of_append [] (mdLink a u) rest
        · have hlen : rest.length ≤ n := le_trans hrest_len
            (Nat.le_of_succ_le_succ (by simpa using hn))
          obtain ⟨hsub, hane', hurl'⟩ := ih rest a u hlen hmem'
          refine ⟨?_, hane', hurl'⟩
          rw [hdec]
          exact hasSub_append_left (mdLink a0 u0) rest (mdLink a u) hsub
      | none =>
        rw [hm] at hmem
        have hlen : t.length ≤ n := Nat.le_of_succ_le_succ (by simpa using hn)
        obtain ⟨hsub, hane, hurl⟩ := ih t a u hlen hmem
        refine ⟨?_, hane, hurl⟩
        have := hasSub_append_left [ch] t (mdLink a u) hsub
        simpa using this

theorem pyReplaceFuel_nil (n : Nat) (old new : List Char) :
    pyReplaceFuel n [] old new = [] := by
  cases n <;> rfl

theorem pyReplaceFuel_irrel :
    ∀ (n m : Nat) (s old new : List Char), s.length ≤ n → s.length ≤ m →
      pyReplaceFuel n s old new = pyReplaceFuel m s old new := by
  intro n
  induction n with
  | zero =>
    intro m s old new hn _
    have hs : s = [] := List.length_eq_zero.1 (Nat.le_zero.1 hn)
    subst hs
    rw [pyReplaceFuel_nil, pyReplaceFuel_nil]
  | succ n ih =>
    intro m s old new hn hm
    cases s with
    | nil => rw [pyReplaceFuel_nil, pyReplaceFuel_nil]
    | cons c s' =>
      cases m with
      | zero => exact absurd hm (by simp)
      | succ m' =>
        simp only [pyReplaceFuel]
        have hn' : s'.length ≤ n := Nat.le_of_succ_le_succ (by simpa using hn)
        have hm' : s'.length ≤ m' := Nat.le_of_succ_le_succ (by simpa using hm)
        by_cases hcond : old ≠ [] ∧ old.isPrefixOf (c :: s') = true
        · rw [if_pos hcond, if_pos hcond]
          have holdlen : 1 ≤ old.length := by
            cases old with
            | nil => exact absurd rfl hcond.1
            | cons a b => simp
          have hd : (List.drop old.length (c :: s')).length ≤ s'.length := by
            simp only [List.length_drop, List.length_cons]
            omega
          rw [ih m' (List.drop old.length (c :: s')) old new
            (le_trans hd hn') (le_trans hd hm')]
        · rw [if_neg hcond, if_neg hcond, ih m' s' old new hn' hm']

theorem splitFirst_sound :
    ∀ (s t p q : List Char), splitFirst s t = some (p, q) → s = p ++ t ++ q := by
  intro s
  induction s with
  | nil =>
    intro t p q h
    simp only [splitFirst] at h
    by_cases hp : t.isPrefixOf ([] : List Char) = true
    · rw [if_pos hp] at h
      have ht : t = [] := eq_nil_of_isPrefixOf_nil t hp
      obtain ⟨hp1, hq1⟩ : ([] : List Char) = p ∧ ([] : List Char) = q := by
        simpa [Prod.ext_iff] using h
      rw [← hp1, ← hq1, ht]
      rfl
    · rw [if_neg hp] at h
      exact absurd h (by simp)
  | cons c s' ih =>
    intro t p q h
    simp only [splitFirst] at h
    by_cases hp : t.isPrefixOf (c :: s') = true
    · rw [if_pos hp] at h
      obtain ⟨u, hu⟩ := (isPrefixOf_eq_true_iff ..).1 hp
      obtain ⟨hp1, hq1⟩ : ([] : List Char) = p ∧ List.drop t.length (c :: s') = q := by
        simpa [Prod.ext_iff] using h
      rw [← hp1, ← hq1, hu, List.drop_left]
      rfl
    · rw [if_neg hp, Option.map_eq_some'] at h
      obtain ⟨⟨p', q'⟩, hsp, heq⟩ := h
      obtain ⟨hp1, hq1⟩ : c :: p' = p ∧ q' = q := by
        simpa [Prod.ext_iff] using heq
      rw [← hp1, ← hq1, ih t p' q' hsp]
      rfl

/-- Replacement `pyReplaceFuel` replaces the leftmost occurrence and recurses on the
text after it: Python's replace-all semantics. -/
theorem pyReplaceFuel_splitFirst :
    ∀ (n : Nat) (s t new p q : List Char), s.length ≤ n → t ≠ [] →
      splitFirst s t = some (p, q) →
      pyReplaceFuel n s t new = p ++ new ++ pyReplace q t new := by
  intro n
  induction n with
  | zero =>
    intro s t new p q hn ht hsp
    have hs : s = [] := List.length_eq_zero.1 (Nat.le_zero.1 hn)
    subst hs
    simp only [splitFirst] at hsp
    rw [if_neg (fun hcon => ht (eq_nil_of_isPrefixOf_nil t hcon))] at hsp
    exact absurd hsp (by simp)
  | succ n ih =>
    intro s t new p q hn ht hsp
    cases s with
    | nil =>
      simp only [splitFirst] at hsp
      rw [if_neg (fun hcon => ht (eq_nil_of_isPrefixOf_nil t hcon))] at hsp
      exact absurd hsp (by simp)
    | cons c s' =>
      simp only [splitFirst] at hsp
      have hn' : s'.length ≤ n := Nat.le_of_succ_le_succ (by simpa using hn)
      by_cases hp : t.isPrefixOf (c :: s') = true
      · rw [if_pos hp] at hsp
        obtain ⟨hp1, hq1⟩ : ([] : List Char) = p ∧ List.drop t.length (c :: s') = q := by
          simpa [Prod.ext_iff] using hsp
        simp only [pyReplaceFuel]
        rw [if_pos ⟨ht, hp⟩, ← hp1, ← hq1]
        have htlen : 1 ≤ t.length := by
          cases t with
          | nil => exact absurd rfl ht
          | cons a b => simp
        have hd : (List.drop t.length (c :: s')).length ≤ s'.length := by
          simp only [List.length_drop, List.length_cons]
          omega
        rw [show pyReplace (List.drop t.length (c :: s')) t new =
            pyReplaceFuel (List.drop t.length (c :: s')).length
              (List.drop t.length (c :: s')) t new from rfl]
        rw [pyReplaceFuel_irrel n (List.drop t.length (c :: s')).length
          (List.drop t.length (c :: s')) t new (le_trans hd hn') (Nat.le_refl _)]
        rfl
      · rw [if_neg hp, Option.map_eq_some'] at hsp
        obtain ⟨⟨p', q'⟩, hsp', heq⟩ := hsp
        obtain ⟨hp1, hq1⟩ : c :: p' = p ∧ q' = q := by
          simpa [Prod.ext_iff] using heq
        simp only [pyReplaceFuel]
        rw [if_neg (fun hcon => hp hcon.2), ← hp1, ← hq1,
          ih s' t new p' q' hn' ht hsp']
        rfl

/-! ## Claims -/

/-- C9: `get_label_by_duration` returns the display name of the first
entry (in table iteration order) whose `minutes` equals the given value,
and `none` when no entry matches — i.e. it agrees with the first-match
`find?` specification on every input. -/
theorem claim_c9_label_for_duration :
    ∀ (minutes : Int) (table : List (String × DurationLabel)),
      get_label_by_duration minutes table = labelForDurationSpec minutes table := by
  intro m table
  induction table with
  | nil => rfl
  | cons kv rest ih =>
    simp only [get_label_by_duration, labelForDurationSpec, List.map_cons,
      List.filterMap_cons, List.find?_cons] at ih ⊢
    by_cases h : kv.2.minutes = m
    · simp [h]
    · simpa [h] using ih

/-- C10: parsing the empty raw title does not raise and yields empty clean
content, absent short duration, absent start/end time, no links, and an
empty 50-character summary. -/
theorem claim_c10_empty_title :
    setRawContent initState (str "") =
      .ok { raw_content := [], pure_content := [], short_duration := none,
            start_time := none, end_time := none, links := [], duration := 0 } ∧
    summary { raw_content := [], pure_content := [], short_duration := none,
              start_time := none, end_time := none, links := [], duration := 0 } = [] := by
  exact ⟨by decide, by decide⟩

/-- C1 counterexample: with label set `{"15min"}` and a table mapping
`"15min"` to 15 minutes, the spec's resolved duration is 15, but the
`TodoistTask.duration` value read after construction is 0 (the setter
assigns `__duration = 0` unconditionally). -/
theorem claim_c1_counterexample :
    (setRawContent initState (str "Plain task")).map (fun st => st.duration) =
      .ok 0 ∧
    resolveDurationSpec ["15min"]
      [("15min", { label := "15min", minutes := 15 })] = 15 ∧
    (0 : Int) ≠ 15 := by
  refine ⟨by decide, by decide, by decide⟩

/-- C1 (amended): the `duration` value read after any assignment of
`raw_content` is exactly 0, for every prior state and every title —
independently of any label set or duration-label table. -/
theorem claim_c1_duration_zero :
    ∀ (st : TaskParseState) (title : List Char) (st' : TaskParseState),
      setRawContent st title = .ok st' → st'.duration = 0 := by
  intro st title st' h
  rw [setRawContent_eq] at h
  cases hpt : parse_time_period st.start_time st.end_time
      (parse_short_duration title).2 with
  | error e =>
    rw [hpt] at h
    exact absurd h (by simp)
  | ok tup =>
    obtain ⟨ts, te, c2⟩ := tup
    rw [hpt] at h
    have h' : Except.ok (⟨title, (parse_links c2).2,
        (parse_short_duration title).1, ts, te, (parse_links c2).1, 0⟩
        : TaskParseState) = Except.ok st' := h
    cases h'
    rfl

theorem claim_c1_duration_zero_witness :
    (⟨str "x", str "x", none, none, none, [], 0⟩ : TaskParseState).duration = 0 :=
  claim_c1_duration_zero initState (str "x") _ (by decide)

/-- C5: the short-duration token is matched only at the very start, as
`(digits+ optional-plus)`; on a match the captured token is recorded
verbatim, exactly that prefix is removed and the remainder trimmed; with
no match the token is absent and the (trimmed) text is unchanged; and
`"(30+) Long task"` yields token `30+` with content `Long task`. -/
theorem claim_c5_short_duration :
    (∀ (ds : List Char) (plus : Bool) (rest : List Char),
      ds ≠ [] → (∀ c ∈ ds, c.isDigit = true) →
      parse_short_duration
          ('(' :: (ds ++ (if plus then ['+'] else []) ++ (')' :: rest))) =
        (some (ds ++ if plus then ['+'] else []), pyStrip rest)) ∧
    (∀ content : List Char, matchShortTok content = none →
      parse_short_duration content = (none, pyStrip content)) ∧
    (∀ content tok : List Char, matchShortTok content = some tok →
      ∃ (ds : List Char) (plus : Bool) (rest : List Char),
        (∀ c ∈ ds, c.isDigit = true) ∧ ds ≠ [] ∧
        tok = (ds ++ if plus then ['+'] else []) ∧
        content = '(' :: (ds ++ (if plus then ['+'] else []) ++ (')' :: rest))) ∧
    parse_short_duration (str "(30+) Long task") =
      (some (str "30+"), str "Long task") := by
  refine ⟨?_, ?_, ?_, by decide⟩
  · intro ds plus rest hne hdig
    have hie : ds.isEmpty = false := by
      cases ds with
      | nil => exact absurd rfl hne
      | cons c t => rfl
    cases plus with
    | true =>
      have hmid := takeWhile_middle Char.isDigit ds '+' (')' :: rest) hdig (by decide)
      have hT : ds ++ ['+'] ++ (')' :: rest) = ds ++ '+' :: ')' :: rest := by simp
      have hexp : expects ['('] ('(' :: (ds ++ '+' :: ')' :: rest)) =
          some (ds ++ '+' :: ')' :: rest) :=
        (expects_eq_some_iff ..).2 rfl
      have hplus : (expects ['+', ')'] ('+' :: ')' :: rest)).isSome = true := by
        rw [show ('+' :: ')' :: rest) = ['+', ')'] ++ rest from rfl]
        simp [expects, isPrefixOf_append]
      have hm : matchShortTok ('(' :: (ds ++ '+' :: ')' :: rest)) =
          some (ds ++ ['+']) := by
        unfold matchShortTok
        rw [hexp, Option.some_bind]
        simp [hmid.1, hmid.2, hie, hplus]
      have hpre : ('(' :: ((ds ++ ['+']) ++ [')'])).isPrefixOf
          ('(' :: (ds ++ '+' :: ')' :: rest)) = true := by
        apply (isPrefixOf_eq_true_iff ..).2
        exact ⟨rest, by simp⟩
      have hdrop : List.drop ('(' :: ((ds ++ ['+']) ++ [')'])).length
          ('(' :: (ds ++ '+' :: ')' :: rest)) = rest := by
        rw [show ('(' :: (ds ++ '+' :: ')' :: rest)) =
            ('(' :: ((ds ++ ['+']) ++ [')'])) ++ rest from by simp]
        exact List.drop_left ..
      show parse_short_duration ('(' :: (ds ++ ['+'] ++ (')' :: rest))) =
        (some (ds ++ ['+']), pyStrip rest)
      rw [hT, parse_short_duration_eq_some _ _ hm, if_pos hpre, hdrop]
    | false =>
      have hmid := takeWhile_middle Char.isDigit ds ')' rest hdig (by decide)
      have hT : ds ++ [] ++ (')' :: rest) = ds ++ ')' :: rest := by simp
      have hexp : expects ['('] ('(' :: (ds ++ ')' :: rest)) =
          some (ds ++ ')' :: rest) :=
        (expects_eq_some_iff ..).2 rfl
      have hplusfail : (expects ['+', ')'] (')' :: rest)).isSome = false := by
        simp [expects, List.isPrefixOf]
      have hq : (expects [')'] (')' :: rest)).isSome = true := by
        rw [show (')' :: rest) = [')'] ++ rest from rfl]
        simp [expects, isPrefixOf_append]
      have hm : matchShortTok ('(' :: (ds ++ ')' :: rest)) = some ds := by
        unfold matchShortTok
        rw [hexp, Option.some_bind]
        simp [hmid.1, hmid.2, hie, hplusfail, hq]
      have hpre : ('(' :: (ds ++ [')'])).isPrefixOf
          ('(' :: (ds ++ ')' :: rest)) = true := by
        apply (isPrefixOf_eq_true_iff ..).2
        exact ⟨rest, by simp⟩
      have hdrop : List.drop ('(' :: (ds ++ [')'])).length
          ('(' :: (ds ++ ')' :: rest)) = rest := by
        rw [show ('(' :: (ds ++ ')' :: rest)) =
            ('(' :: (ds ++ [')'])) ++ rest from by simp]
        exact List.drop_left ..
      show parse_short_duration ('(' :: (ds ++ [] ++ (')' :: rest))) =
        (some (ds ++ []), pyStrip rest)
      rw [hT, parse_short_duration_eq_some _ _ (by simpa using hm), if_pos hpre]
      rw [hdrop]
      simp
  · intro content h
    exact parse_short_duration_eq_none content h
  · intro content tok h
    unfold matchShortTok at h
    rw [Option.bind_eq_some] at h
    obtain ⟨T, h1, h⟩ := h
    simp only at h
    rw [expects_eq_some_iff] at h1
    by_cases hie : (T.takeWhile Char.isDigit).isEmpty
    · rw [if_pos hie] at h; exact absurd h (by simp)
    · rw [if_neg hie] at h
      have hdig : ∀ c ∈ T.takeWhile Char.isDigit, c.isDigit = true := by
        intro c hc
        exact List.mem_takeWhile_imp hc
      have hne : T.takeWhile Char.isDigit ≠ [] := by
        simpa [List.isEmpty_iff] using hie
      by_cases hp : (expects ['+', ')'] (T.dropWhile Char.isDigit)).isSome
      · rw [if_pos hp] at h
        obtain ⟨r, hr⟩ := Option.isSome_iff_exists.1 hp
        rw [expects_eq_some_iff] at hr
        have hdecomp : T = T.takeWhile Char.isDigit ++ (['+', ')'] ++ r) := by
          conv_lhs => rw [← List.takeWhile_append_dropWhile (p := Char.isDigit) (l := T)]
          rw [hr]
        refine ⟨T.takeWhile Char.isDigit, true, r, hdig, hne, by simpa using h.symm, ?_⟩
        rw [h1]
        show '(' :: T = '(' :: (T.takeWhile Char.isDigit ++
          (if true then ['+'] else []) ++ (')' :: r))
        refine congrArg (fun x => '(' :: x) ?_
        conv_lhs => rw [hdecomp]
        simp
      · rw [if_neg hp] at h
        by_cases hq : (expects [')'] (T.dropWhile Char.isDigit)).isSome
        · rw [if_pos hq] at h
          obtain ⟨r, hr⟩ := Option.isSome_iff_exists.1 hq
          rw [expects_eq_some_iff] at hr
          have hdecomp : T = T.takeWhile Char.isDigit ++ ([')'] ++ r) := by
            conv_lhs => rw [← List.takeWhile_append_dropWhile (p := Char.isDigit) (l := T)]
            rw [hr]
          refine ⟨T.takeWhile Char.isDigit, false, r, hdig, hne, by simpa using h.symm, ?_⟩
          rw [h1]
          show '(' :: T = '(' :: (T.takeWhile Char.isDigit ++
            (if false then ['+'] else []) ++ (')' :: r))
          refine congrArg (fun x => '(' :: x) ?_
          conv_lhs => rw [hdecomp]
          simp
        · rw [if_neg hq] at h
          exact absurd h (by simp)

theorem claim_c5_short_duration_witness :
    parse_short_duration
        ('(' :: (str "15" ++ (if false then ['+'] else []) ++ (')' :: str " x"))) =
      (some (str "15" ++ if false then ['+'] else []), pyStrip (str " x")) :=
  claim_c5_short_duration.1 (str "15") false (str " x") (by decide) (by decide)

/-- C2 counterexample: in `"1:00-2:00 x 1:00-2:00"` the matched substring
`1:00-2:00` occurs twice; `content.replace(result[0], '')` deletes both
occurrences, so — contrary to the claim — the second identical occurrence
does not remain in the clean content (which is just `"x"`). -/
theorem claim_c2_counterexample :
    setRawContent initState (str "1:00-2:00 x 1:00-2:00") =
      .ok ⟨str "1:00-2:00 x 1:00-2:00", str "x", none, some (1, 0), some (2, 0),
           [], 0⟩ ∧
    hasSub (str "x") (str "1:00-2:00") = false := by
  exact ⟨by decide, by decide⟩

/-- C2 (amended): when the leftmost regex-shaped time substring of the
text left after short-duration stripping has two halves accepted by
`strptime`, it is parsed into `start_time`/`end_time` and ALL of its
non-overlapping occurrences are deleted (Python `str.replace`), not just
the first one; the remainder is trimmed and passed to link parsing. -/
theorem claim_c2_time_period :
    ∀ (st : TaskParseState) (title m : List Char) (t1 t2 : Nat × Nat),
      findFirstTime (parse_short_duration title).2 = some m →
      parseTimeHalves m = some (t1, t2) →
      setRawContent st title =
        .ok ⟨title,
          (parse_links (pyStrip
            (pyReplace (parse_short_duration title).2 m []))).2,
          (parse_short_duration title).1, some t1, some t2,
          (parse_links (pyStrip
            (pyReplace (parse_short_duration title).2 m []))).1, 0⟩ := by
  intro st title m t1 t2 hf hh
  rw [setRawContent_eq, parse_time_period_of_valid _ _ _ m t1 t2 hf hh]

theorem claim_c2_time_period_witness :
    setRawContent initState (str "0:05-0:06 y 0:05-0:06") =
      .ok ⟨str "0:05-0:06 y 0:05-0:06", str "y", none, some (0, 5), some (0, 6),
           [], 0⟩ := by
  rw [claim_c2_time_period initState (str "0:05-0:06 y 0:05-0:06")
    (str "0:05-0:06") (0, 5) (0, 6) (by decide) (by decide)]
  decide

/-- C6 counterexample: `"1:00-2:00 99:99-3:00"` contains the substring
`99:99-3:00`, which matches the time-range regex shape while its first
half `99:99` is rejected by `strptime`; yet parsing does not raise — it
returns a parsed result (the first match `1:00-2:00` is valid, and only
the first match is ever examined). -/
theorem claim_c6_counterexample :
    hasSub (str "1:00-2:00 99:99-3:00") (str "99:99-3:00") = true ∧
    matchTimeAt (str "99:99-3:00") = some (str "99:99-3:00") ∧
    strptimeHM (str "99:99") = none ∧
    setRawContent initState (str "1:00-2:00 99:99-3:00") =
      .ok ⟨str "1:00-2:00 99:99-3:00", str "99:99-3:00", none, some (1, 0),
           some (2, 0), [], 0⟩ := by
  exact ⟨by decide, by decide, by decide, by decide⟩

/-- C6 (amended): assigning a raw title raises (ValueError) exactly when
the LEFTMOST regex-shaped time substring of the text left after
short-duration stripping exists and has a half rejected by `strptime`;
shape-matching substrings after a valid first match are never examined. -/
theorem claim_c6_error_iff :
    ∀ (st : TaskParseState) (title : List Char),
      setRawContent st title = .error () ↔
        ∃ m, findFirstTime (parse_short_duration title).2 = some m ∧
          parseTimeHalves m = none := by
  intro st title
  rw [setRawContent_eq]
  cases hf : findFirstTime (parse_short_duration title).2 with
  | none =>
    rw [parse_time_period_of_none _ _ _ hf]
    simp
  | some m =>
    cases hh : parseTimeHalves m with
    | none =>
      rw [parse_time_period_of_invalid _ _ _ m hf hh]
      exact ⟨fun _ => ⟨m, rfl, hh⟩, fun _ => rfl⟩
    | some tt =>
      obtain ⟨t1, t2⟩ := tt
      rw [parse_time_period_of_valid _ _ _ m t1 t2 hf hh]
      constructor
      · intro hcon
        exact absurd hcon (by simp)
      · rintro ⟨m', hm', hh'⟩
        injection hm' with he
        rw [← he] at hh'
        rw [hh] at hh'
        exact absurd hh' (by simp)

/-- C7 counterexample: assigning `"1:00-2:00 x"` and then `"plain"` leaves
`start_time = 01:00` (stale, from the first title), while assigning
`"plain"` alone leaves `start_time` absent — the derived state is not
recomputed fresh. -/
theorem claim_c7_counterexample :
    ((setRawContent initState (str "1:00-2:00 x")).bind
      (fun st => setRawContent st (str "plain"))).map (fun st => st.start_time) =
      .ok (some (1, 0)) ∧
    (setRawContent initState (str "plain")).map (fun st => st.start_time) =
      .ok none := by
  exact ⟨by decide, by decide⟩

/-- C7 (amended): after assigning raw titles A then B, every derived field
except `start_time`/`end_time` equals the value after assigning B alone;
`start_time`/`end_time` are overwritten only when B's stripped text
contains a regex-shaped time substring, and otherwise retain the values
left by A. -/
theorem claim_c7_reassignment :
    ∀ (A B : List Char) (st1 st2 stB : TaskParseState),
      setRawContent initState A = .ok st1 →
      setRawContent st1 B = .ok st2 →
      setRawContent initState B = .ok stB →
      st2.raw_content = stB.raw_content ∧
      st2.pure_content = stB.pure_content ∧
      st2.short_duration = stB.short_duration ∧
      st2.links = stB.links ∧
      st2.duration = stB.duration ∧
      (findFirstTime (parse_short_duration B).2 = none →
        st2.start_time = st1.start_time ∧ st2.end_time = st1.end_time ∧
        stB.start_time = none ∧ stB.end_time = none) ∧
      ((findFirstTime (parse_short_duration B).2).isSome = true →
        st2.start_time = stB.start_time ∧ st2.end_time = stB.end_time) := by
  intro A B st1 st2 stB h1 h2 h3
  rw [setRawContent_eq] at h2 h3
  cases hf : findFirstTime (parse_short_duration B).2 with
  | none =>
    rw [parse_time_period_of_none _ _ _ hf] at h2 h3
    have h2' : Except.ok (⟨B,
        (parse_links (pyStrip (parse_short_duration B).2)).2,
        (parse_short_duration B).1, st1.start_time, st1.end_time,
        (parse_links (pyStrip (parse_short_duration B).2)).1, 0⟩
        : TaskParseState) = Except.ok st2 := h2
    have h3' : Except.ok (⟨B,
        (parse_links (pyStrip (parse_short_duration B).2)).2,
        (parse_short_duration B).1, none, none,
        (parse_links (pyStrip (parse_short_duration B).2)).1, 0⟩
        : TaskParseState) = Except.ok stB := h3
    cases h2'
    cases h3'
    exact ⟨rfl, rfl, rfl, rfl, rfl,
      fun _ => ⟨rfl, rfl, rfl, rfl⟩,
      fun hcon => absurd hcon (by simp)⟩
  | some m =>
    cases hh : parseTimeHalves m with
    | none =>
      rw [parse_time_period_of_invalid _ _ _ m hf hh] at h2
      exact absurd h2 (by simp)
    | some tt =>
      obtain ⟨t1, t2⟩ := tt
      rw [parse_time_period_of_valid _ _ _ m t1 t2 hf hh] at h2 h3
      have h2' : Except.ok (⟨B,
          (parse_links (pyStrip (pyReplace (parse_short_duration B).2 m []))).2,
          (parse_short_duration B).1, some t1, some t2,
          (parse_links (pyStrip (pyReplace (parse_short_duration B).2 m []))).1,
          0⟩ : TaskParseState) = Except.ok st2 := h2
      have h3' : Except.ok (⟨B,
          (parse_links (pyStrip (pyReplace (parse_short_duration B).2 m []))).2,
          (parse_short_duration B).1, some t1, some t2,
          (parse_links (pyStrip (pyReplace (parse_short_duration B).2 m []))).1,
          0⟩ : TaskParseState) = Except.ok stB := h3
      cases h2'
      cases h3'
      exact ⟨rfl, rfl, rfl, rfl, rfl,
        fun hcon => absurd hcon (by simp),
        fun _ => ⟨rfl, rfl⟩⟩

theorem claim_c7_reassignment_witness :
    (⟨str "plain", str "plain", none, some (1, 0), some (2, 0), [], 0⟩
      : TaskParseState).pure_content =
    (⟨str "plain", str "plain", none, none, none, [], 0⟩
      : TaskParseState).pure_content :=
  (claim_c7_reassignment (str "1:00-2:00 x") (str "plain")
    ⟨str "1:00-2:00 x", str "x", none, some (1, 0), some (2, 0), [], 0⟩
    ⟨str "plain", str "plain", none, some (1, 0), some (2, 0), [], 0⟩
    ⟨str "plain", str "plain", none, none, none, [], 0⟩
    (by decide) (by decide) (by decide)).2.1

/-- C3 counterexample: the regex `http[s]*://` also accepts any number of
`s` characters, so `[a](httpss://x)` is extracted as a link whose URL
begins with neither `http://` nor `https://`. -/
theorem claim_c3_counterexample :
    (parse_links (str "[a](httpss://x)")).1 = [(str "a", str "httpss://x")] ∧
    (str "http://").isPrefixOf (str "httpss://x") = false ∧
    (str "https://").isPrefixOf (str "httpss://x") = false ∧
    setRawContent initState (str "[a](httpss://x)") =
      .ok ⟨str "[a](httpss://x)", str "a", none, none, none,
           [(str "a", str "httpss://x")], 0⟩ := by
  exact ⟨by decide, by decide, by decide, by decide⟩

/-- C3 (amended): every extracted link pair has a URL of shape `http`,
zero or more `s`, `://`, non-empty tail; the anchor is non-empty and the
full Markdown form of the pair occurs in the scanned text; pairs are
collected in left-to-right scan order (the order of `findLinks`) and the
clean content is the text with each matched substring replaced by its
bare anchor (Python replace semantics), trimmed. -/
theorem claim_c3_links :
    ∀ (content a u : List Char), (a, u) ∈ (parse_links content).1 →
      (∃ k ur, u = str "http" ++ List.replicate k 's' ++ str "://" ++ ur ∧
        ur ≠ []) ∧
      a ≠ [] ∧ hasSub content (mdLink a u) = true ∧
      (parse_links content).2 =
        pyStrip (((parse_links content).1).foldl
          (fun c tl => pyReplace c (mdLink tl.1 tl.2) tl.1) content) := by
  intro content a u hmem
  have hp := mem_findLinksFuel_props content.length content a u (Nat.le_refl _)
    (by simpa [parse_links, findLinks] using hmem)
  exact ⟨hp.2.2, hp.2.1, hp.1, rfl⟩

theorem claim_c3_links_witness :
    hasSub (str "[go](https://ex)") (mdLink (str "go") (str "https://ex")) =
      true :=
  (claim_c3_links (str "[go](https://ex)") (str "go") (str "https://ex")
    (by decide)).2.2.1

/-- C8 counterexample: rendering `"a a"` with the single pair
`("a", "http://x")` replaces BOTH occurrences of the anchor — the code
uses Python `str.replace`, which replaces every occurrence, not only the
first one as the claim states. -/
theorem claim_c8_counterexample :
    get_content (str "a a") [(str "a", str "http://x")] =
      str "[a](http://x) [a](http://x)" ∧
    renderFirstSpec (str "a a") [(str "a", str "http://x")] =
      str "[a](http://x) a" ∧
    get_content (str "a a") [(str "a", str "http://x")] ≠
      renderFirstSpec (str "a a") [(str "a", str "http://x")] := by
  exact ⟨by decide, by decide, by decide⟩

/-- C8 (amended): for each (anchor, url) pair in order, rendering replaces
EVERY non-overlapping occurrence of the bare anchor, left to right
(Python `str.replace`): an anchor that does not occur leaves the content
unchanged (no error); when it occurs, the Markdown form appears in the
result; processing is the left fold of single-pair steps; and the
single-pair step replaces the leftmost occurrence and recurses on the
text after it. -/
theorem claim_c8_render :
    (∀ (content t l : List Char), hasSub content t = false →
      get_content content [(t, l)] = content) ∧
    (∀ (content t l : List Char), t ≠ [] → hasSub content t = true →
      hasSub (get_content content [(t, l)]) (mdLink t l) = true) ∧
    (∀ (content t l : List Char) (links : List (List Char × List Char)),
      get_content content ((t, l) :: links) =
        get_content (pyReplace content t (mdLink t l)) links) ∧
    (∀ (content t new p q : List Char), t ≠ [] →
      splitFirst content t = some (p, q) →
      pyReplace content t new = p ++ new ++ pyReplace q t new) := by
  refine ⟨?_, ?_, ?_, ?_⟩
  · intro content t l hsub
    show pyReplace content t (mdLink t l) = content
    exact pyReplace_of_not_hasSub content t (mdLink t l) hsub
  · intro content t l ht hsub
    show hasSub (pyReplace content t (mdLink t l)) (mdLink t l) = true
    exact hasSub_pyReplace_new content t (mdLink t l) ht hsub
  · intro content t l links
    rfl
  · intro content t new p q ht hsp
    exact pyReplaceFuel_splitFirst content.length content t new p q
      (Nat.le_refl _) ht hsp

theorem claim_c8_render_witness :
    pyReplace (str "a a") (str "a") (str "M") =
      [] ++ str "M" ++ pyReplace (str " a") (str "a") (str "M") :=
  claim_c8_render.2.2.2 (str "a a") (str "a") (str "M") [] (str " a")
    (by decide) (by decide)

/-- C4 counterexample: parsing `[a](http://x) [ab](http://y)` yields clean
content `a ab` with two links, but rendering destroys the second anchor
(the replace-all of `a` rewrites the `a` inside `ab` too), so the
rendered string does not contain `[ab](http://y)`.  A second failure
mode: an anchor with boundary whitespace, `[ a](http://x)`, is trimmed
out of the clean content, so its Markdown form cannot be re-rendered. -/
theorem claim_c4_counterexample :
    setRawContent initState (str "[a](http://x) [ab](http://y)") =
      .ok ⟨str "[a](http://x) [ab](http://y)", str "a ab", none, none, none,
           [(str "a", str "http://x"), (str "ab", str "http://y")], 0⟩ ∧
    get_content (str "a ab")
        [(str "a", str "http://x"), (str "ab", str "http://y")] =
      str "[a](http://x) [a](http://x)b" ∧
    hasSub (str "[a](http://x) [a](http://x)b")
      (mdLink (str "ab") (str "http://y")) = false ∧
    setRawContent initState (str "[ a](http://x)") =
      .ok ⟨str "[ a](http://x)", str "a", none, none, none,
           [(str " a", str "http://x")], 0⟩ ∧
    get_content (str "a") [(str " a", str "http://x")] = str "a" ∧
    hasSub (str "a") (mdLink (str " a") (str "http://x")) = false := by
  exact ⟨by decide, by decide, by decide, by decide, by decide, by decide⟩

/-- C4 (amended round-trip): if parsing a raw title produces exactly one
link pair and its anchor starts and ends with non-whitespace characters,
then rendering the clean content with the stored link list yields a
string containing that pair's Markdown form as a substring. -/
theorem claim_c4_roundtrip :
    ∀ (st : TaskParseState) (title : List Char) (st' : TaskParseState)
      (t l : List Char) (c : Char) (t1 : List Char) (d : Char) (t2 : List Char),
      setRawContent st title = .ok st' →
      st'.links = [(t, l)] →
      t = c :: t1 → t.reverse = d :: t2 →
      pySpace c = false → pySpace d = false →
      hasSub (get_content st'.pure_content st'.links) (mdLink t l) = true := by
  intro st title st' t l c t1 d t2 hok hlinks hhead hlast hc hd
  rw [setRawContent_eq] at hok
  cases hpt : parse_time_period st.start_time st.end_time
      (parse_short_duration title).2 with
  | error e =>
    rw [hpt] at hok
    exact absurd hok (by simp)
  | ok tup =>
    obtain ⟨ts, te, c2⟩ := tup
    rw [hpt] at hok
    have hok' : Except.ok (⟨title, (parse_links c2).2,
        (parse_short_duration title).1, ts, te, (parse_links c2).1, 0⟩
        : TaskParseState) = Except.ok st' := hok
    cases hok'
    have hlinks' : findLinks c2 = [(t, l)] := hlinks
    have hmem : (t, l) ∈ findLinksFuel c2.length c2 := by
      rw [show findLinksFuel c2.length c2 = findLinks c2 from rfl, hlinks']
      simp
    have hprops := mem_findLinksFuel_props c2.length c2 t l (Nat.le_refl _) hmem
    have htne : t ≠ [] := by rw [hhead]; simp
    have hmdne : mdLink t l ≠ [] := by simp [mdLink]
    have hpure : (parse_links c2).2 = pyStrip (pyReplace c2 (mdLink t l) t) := by
      show pyStrip ((findLinks c2).foldl
        (fun c tl => pyReplace c (mdLink tl.1 tl.2) tl.1) c2) = _
      rw [hlinks']
      rfl
    have h1 : hasSub (pyReplace c2 (mdLink t l) t) t = true :=
      hasSub_pyReplace_new c2 (mdLink t l) t hmdne hprops.1
    have h2 : hasSub (pyStrip (pyReplace c2 (mdLink t l) t)) t = true :=
      hasSub_pyStrip (pyReplace c2 (mdLink t l) t) t c d t1 t2 hhead hlast
        hc hd h1
    have hrender : get_content (parse_links c2).2 [(t, l)] =
        pyReplace (parse_links c2).2 t (mdLink t l) := rfl
    rw [show (⟨title, (parse_links c2).2, (parse_short_duration title).1,
        ts, te, (parse_links c2).1, 0⟩ : TaskParseState).links =
        (parse_links c2).1 from rfl]
    rw [show (⟨title, (parse_links c2).2, (parse_short_duration title).1,
        ts, te, (parse_links c2).1, 0⟩ : TaskParseState).pure_content =
        (parse_links c2).2 from rfl]
    rw [show (parse_links c2).1 = findLinks c2 from rfl, hlinks', hrender]
    rw [hpure]
    exact hasSub_pyReplace_new _ t (mdLink t l) htne h2

theorem claim_c4_roundtrip_witness :
    hasSub (get_content
        (⟨str "[go](http://x)", str "go", none, none, none,
          [(str "go", str "http://x")], 0⟩ : TaskParseState).pure_content
        (⟨str "[go](http://x)", str "go", none, none, none,
          [(str "go", str "http://x")], 0⟩ : TaskParseState).links)
      (mdLink (str "go") (str "http://x")) = true :=
  claim_c4_roundtrip initState (str "[go](http://x)")
    ⟨str "[go](http://x)", str "go", none, none, none,
      [(str "go", str "http://x")], 0⟩
    (str "go") (str "http://x") 'g' (str "o") 'o' (str "g")
    (by decide) (by decide) (by decide) (by decide) (by decide) (by decide)

end TaskTools
